import Mathlib

/-!
Verification of the hotcoal library (Go): a trusted-string abstraction for
handcrafted SQL. We shallowly embed the data model and operations:
strings are Lean `String` values (sequences of characters), the allowlist
is the list of construction items with membership by exact equality
(mirroring the Go map keyed by string equality), fallible operations
return `Option` (with `none` standing for the error / panic outcome),
and the Builder is explicit state (content plus capacity bookkeeping).
-/

namespace Hotcoal

/-- Embeds `hotcoalString` from hotcoal.go: a Go string, i.e. a sequence
of characters. The `String` method (unwrap) is the identity on content. -/
abbrev hotcoalString := String

/-- Embeds `allowlistT` from allowlist.go: holds the allowlist items.
The Go code stores them as keys of a map (a set keyed by exact value
equality); we keep the item list, and membership is exact equality, so
the validated behaviour is identical (duplicates in a map collapse but
membership is unchanged). -/
structure allowlistT where
  items : List hotcoalString
deriving DecidableEq

/-- Embeds `Allowlist(firstAllowlistItem, otherAllowlistItems...)` from
allowlist.go: builds the item set from the first item and the variadic
rest. -/
def Allowlist (firstAllowlistItem : hotcoalString)
    (otherAllowlistItems : List hotcoalString) : allowlistT :=
  ⟨firstAllowlistItem :: otherAllowlistItems⟩

/-- Embeds `allowlistT.Validate` from allowlist.go: a map lookup of the
value among the items; on a hit it returns the value as a
`hotcoalString`, otherwise it returns an error (modelled as `none`; the
Go error value carries a diagnostic message and no string). -/
def allowlistT.Validate (a : allowlistT) (value : String) : Option hotcoalString :=
  if value ∈ a.items then some value else none

/-- Embeds `allowlistT.MustValidate` from allowlist.go: calls `Validate`
and panics when it returned an error, otherwise returns the validated
string. The panic is modelled as `none`, so the body is exactly the
`Validate` result. -/
def allowlistT.MustValidate (a : allowlistT) (value : String) : Option hotcoalString :=
  a.Validate value

/-- Embeds the `Builder` struct (wrapping the Go standard library
`strings.Builder`): the accumulated content and the capacity of the
underlying byte buffer. -/
structure Builder where
  content : String
  cap : Nat
deriving DecidableEq

/-- The Go zero value `var b Builder`: empty content, nil buffer of
capacity zero. -/
def Builder.zero : Builder := ⟨"", 0⟩

/-- Embeds `Builder.Len`: the number of accumulated characters. -/
def Builder.Len (b : Builder) : Nat := b.content.length

/-- Embeds `Builder.Cap`: the capacity of the underlying buffer. -/
def Builder.Cap (b : Builder) : Nat := b.cap

/-- Embeds `Builder.Reset` (strings.Builder.Reset sets the buffer to
nil): empty content and zero capacity. -/
def Builder.Reset (_ : Builder) : Builder := ⟨"", 0⟩

/-- Embeds `Builder.Grow` (strings.Builder.Grow): panics when n is
negative (modelled as `none`); when the spare capacity is below n it
reallocates a buffer of capacity 2*cap + n, otherwise it is a no-op. -/
def Builder.Grow (b : Builder) (n : Int) : Option Builder :=
  if n < 0 then none
  else if (b.cap : Int) - (b.content.length : Int) < n then
    some ⟨b.content, 2 * b.cap + n.toNat⟩
  else some b

/-- Embeds `Builder.Write`: appends the fragment to the buffer
(strings.Builder.WriteString never returns an error, so the panic branch
in the Go code is unreachable and Write is total). When the appended
content exceeds the capacity the buffer reallocates; we model the grown
capacity as the larger of the doubled old capacity and the new length
(Go append reserves at least the needed space, amortising by doubling);
no claim depends on the exact grown value, only on cap >= len. -/
def Builder.Write (b : Builder) (s : hotcoalString) : Builder :=
  let newContent := b.content ++ s
  ⟨newContent,
    if newContent.length ≤ b.cap then b.cap
    else max (2 * b.cap) newContent.length⟩

/-- Embeds `Builder.HotcoalString`: the accumulated content as a
`hotcoalString`. -/
def Builder.HotcoalString (b : Builder) : hotcoalString := b.content

/-- Embeds `Join` from strings.go, which delegates to the Go standard
library strings.Join: empty input gives the empty string, a single
element is returned unchanged, and otherwise the first element is
written and every later element is preceded by the separator. -/
def Join (elems : List hotcoalString) (sep : hotcoalString) : hotcoalString :=
  match elems with
  | [] => ""
  | [x] => x
  | x :: rest => rest.foldl (fun acc el => acc ++ sep ++ el) x

/-- Character-list core of the Go standard library strings.Count for a
nonempty pattern p :: ps: scan left to right; at a match count one and
skip past the match, otherwise advance one character. Counts
non-overlapping occurrences. -/
def countOccAux (p : Char) (ps : List Char) : List Char → Nat
  | [] => 0
  | c :: rest =>
    if (p :: ps).isPrefixOf (c :: rest) then
      1 + countOccAux p ps (rest.drop ps.length)
    else
      countOccAux p ps rest
termination_by l => l.length
decreasing_by
  · simp only [List.length_drop, List.length_cons]
    omega
  · simp only [List.length_cons]
    omega

/-- Embeds the Go standard library strings.Count, used by
strings.Replace: an empty pattern counts one more than the number of
characters; otherwise non-overlapping occurrences are counted. -/
def Count (s pat : List Char) : Nat :=
  match pat with
  | [] => s.length + 1
  | p :: ps => countOccAux p ps s

/-- Splits s at the first occurrence of old (the Go standard library
Index plus slicing in strings.Replace): returns the part before the
match and the part after it, or `none` when old does not occur. -/
def findSplit (old : List Char) : List Char → Option (List Char × List Char)
  | [] => if old.isPrefixOf ([] : List Char) then some ([], []) else none
  | c :: rest =>
    if old.isPrefixOf (c :: rest) then some ([], (c :: rest).drop old.length)
    else (findSplit old rest).map (fun pr => (c :: pr.1, pr.2))

/-- The replacement loop of the Go standard library strings.Replace,
run for a fixed number of replacements. For an empty old pattern the
first iteration matches at the start of the string and every later
iteration consumes one character before inserting; for a nonempty old
the text before the match is kept, the match is dropped and new is
inserted. When the count reaches zero the remaining text is kept. -/
def replLoop (old new : List Char) : Nat → Bool → List Char → List Char
  | 0, _, s => s
  | k + 1, first, s =>
    if old = [] then
      if first then new ++ replLoop old new k false s
      else
        match s with
        | [] => new ++ replLoop old new k false []
        | c :: rest => c :: (new ++ replLoop old new k false rest)
    else
      match findSplit old s with
      | some pr => pr.1 ++ new ++ replLoop old new k false pr.2
      | none => s

/-- Embeds `Replace` from strings.go, which delegates to the Go
standard library strings.Replace: returns s unchanged when old equals
new or n is zero or old does not occur; otherwise replaces the first n
non-overlapping occurrences of old by new, all of them when n is
negative or exceeds the occurrence count. -/
def Replace (s old new : hotcoalString) (n : Int) : hotcoalString :=
  if old = new ∨ n = 0 then s
  else
    let m := Count s.data old.data
    if m = 0 then s
    else
      let k : Nat := if n < 0 ∨ (m : Int) < n then m else n.toNat
      ⟨replLoop old.data new.data k true s.data⟩

/-- Embeds `ReplaceAll` from strings.go, which delegates to the Go
standard library strings.ReplaceAll, itself defined as
Replace(s, old, new, -1). -/
def ReplaceAll (s old new : hotcoalString) : hotcoalString :=
  Replace s old new (-1)

/-- The decimal digit character, as indexed from the digit table of the
Go standard library strconv package. -/
def digitChar (d : Nat) : Char := Char.ofNat (48 + d)

/-- The digit loop of the Go standard library strconv formatBits in
base 10 (its two-digits-at-a-time unrolling produces the same
characters): emit the digits of n most significant first. -/
def fmtNat (n : Nat) : List Char :=
  if n < 10 then [digitChar n]
  else fmtNat (n / 10) ++ [digitChar (n % 10)]
decreasing_by
  exact Nat.div_lt_self (by omega) (by omega)

/-- Embeds `Itoa` from strconv.go, which delegates to the Go standard
library strconv.Itoa: the decimal digits of the magnitude, preceded by
a minus sign for negative input. -/
def Itoa (i : Int) : hotcoalString :=
  if i < 0 then ⟨'-' :: fmtNat (-i).toNat⟩ else ⟨fmtNat i.toNat⟩

/-- C1: Validate on an allowlist built from first and the other items
succeeds exactly on the construction items (exact, case-sensitive
equality), and on success returns the value unchanged. -/
theorem validate_some_iff (first : hotcoalString) (others : List hotcoalString)
    (v s : String) :
    (Allowlist first others).Validate v = some s ↔
      v ∈ first :: others ∧ s = v := by
  by_cases h : v ∈ first :: others <;>
    simp [Allowlist, allowlistT.Validate, h, eq_comm]

/-- C3: when the value is not among the construction items, Validate
returns the error outcome and no validated string. -/
theorem validate_not_mem (first : hotcoalString) (others : List hotcoalString)
    (v : String) (h : v ∉ first :: others) :
    (Allowlist first others).Validate v = none := by
  simp [Allowlist, allowlistT.Validate, h]

theorem validate_not_mem_witness :
    (Allowlist "foo" ["bar"]).Validate "baz" = none :=
  validate_not_mem "foo" ["bar"] "baz" (by decide)

/-- C4: MustValidate returns the same content as a successful Validate
when the value is a member, and panics (modelled as none, returning no
value) when it is not. -/
theorem mustValidate_spec (first : hotcoalString) (others : List hotcoalString)
    (v : String) :
    (v ∈ first :: others →
      (Allowlist first others).MustValidate v = some v) ∧
    (v ∉ first :: others →
      (Allowlist first others).MustValidate v = none) := by
  constructor <;> intro h <;>
    simp [Allowlist, allowlistT.MustValidate, allowlistT.Validate, h]

theorem mustValidate_spec_witness :
    (Allowlist "foo" ["bar"]).MustValidate "foo" = some "foo" ∧
    (Allowlist "foo" ["bar"]).MustValidate "baz" = none :=
  ⟨(mustValidate_spec "foo" ["bar"] "foo").1 (by decide),
   (mustValidate_spec "foo" ["bar"] "baz").2 (by decide)⟩

/-- C5: immediately after Reset, on any Builder state whatsoever, both
the length and the capacity are zero: the capacity is released, not
merely the length truncated. -/
theorem reset_len_cap (b : Builder) :
    (b.Reset).Len = 0 ∧ (b.Reset).Cap = 0 :=
  ⟨rfl, rfl⟩

/-- C7: Join of the empty sequence is the empty string, Join of a
singleton is the element unchanged (the separator is unused), and for
longer sequences the separator sits exactly between consecutive
elements. -/
theorem join_spec (sep x y z : hotcoalString) :
    Join [] sep = "" ∧ Join [x] sep = x ∧
    Join [x, y, z] sep = x ++ sep ++ y ++ sep ++ z := by
  refine ⟨rfl, rfl, ?_⟩
  simp [Join, String.append_assoc]

/-- C8: ReplaceAll is extensionally equal to Replace with count -1 (in
the source it is literally defined by that call). -/
theorem replaceAll_eq_replace (s old new : hotcoalString) :
    ReplaceAll s old new = Replace s old new (-1) := rfl

theorem write_foldl_content (fs : List hotcoalString) (b : Builder) :
    (fs.foldl Builder.Write b).content =
      b.content ++ fs.foldr (fun a acc => a ++ acc) "" := by
  induction fs generalizing b with
  | nil => simp [String.append_empty]
  | cons f rest ih =>
    simp only [List.foldl_cons, List.foldr_cons, Builder.Write, ih,
      String.append_assoc]

/-- C2: a Builder started from the zero value that appends fragments in
order via Write and extracts its content yields the right-nested
concatenation of the fragments. -/
theorem builder_write_concat (fs : List hotcoalString) :
    (fs.foldl Builder.Write Builder.zero).HotcoalString =
      fs.foldr (fun a acc => a ++ acc) "" := by
  have h := write_foldl_content fs Builder.zero
  simpa [Builder.HotcoalString, Builder.zero, String.empty_append] using h

/-- C9: on any valid Builder state (length not exceeding capacity),
Grow panics exactly on negative arguments; on every nonnegative n it
succeeds, preserves the content, and leaves at least n characters of
spare capacity, so n more characters can be appended without
reallocation. -/
theorem grow_spec (b : Builder) (n : Int) (hinv : b.Len ≤ b.Cap) :
    (n < 0 → b.Grow n = none) ∧
    (0 ≤ n → ∃ b2, b.Grow n = some b2 ∧ b2.content = b.content ∧
      (b2.Len : Int) + n ≤ (b2.Cap : Int)) := by
  simp only [Builder.Len, Builder.Cap] at hinv
  constructor
  · intro h
    simp [Builder.Grow, h]
  · intro h
    by_cases h2 : (b.cap : Int) - (b.content.length : Int) < n
    · refine ⟨⟨b.content, 2 * b.cap + n.toNat⟩, ?_, rfl, ?_⟩
      · simp [Builder.Grow, h2, not_lt.mpr h]
      · simp only [Builder.Len, Builder.Cap]
        push_cast
        omega
    · refine ⟨b, ?_, rfl, ?_⟩
      · simp [Builder.Grow, h2, not_lt.mpr h]
      · simp only [Builder.Len, Builder.Cap]
        omega

theorem grow_spec_witness :
    ∃ b2, Builder.zero.Grow 5 = some b2 ∧ b2.content = Builder.zero.content ∧
      (b2.Len : Int) + 5 ≤ (b2.Cap : Int) :=
  (grow_spec Builder.zero 5 (by decide)).2 (by decide)

/-- Spec-side description of empty-old replacement: the replacement is
inserted at the start of the string and after every character, giving
one insertion more than there are characters. -/
def insertEverywhere (new : List Char) : List Char → List Char
  | [] => new
  | c :: rest => new ++ (c :: insertEverywhere new rest)

theorem insertEverywhere_nil (s : List Char) :
    insertEverywhere [] s = s := by
  induction s with
  | nil => rfl
  | cons c rest ih => simp [insertEverywhere, ih]

theorem replLoop_empty_first (new s : List Char) (k : Nat) :
    replLoop [] new (k + 1) true s = new ++ replLoop [] new k false s := by
  simp [replLoop]

theorem replLoop_empty_notfirst (new : List Char) (s : List Char) :
    new ++ replLoop [] new s.length false s = insertEverywhere new s := by
  induction s with
  | nil => simp [replLoop, insertEverywhere]
  | cons c rest ih =>
    have hstep : replLoop [] new (rest.length + 1) false (c :: rest) =
        c :: (new ++ replLoop [] new rest.length false rest) := by
      simp [replLoop]
    simp only [List.length_cons, hstep, insertEverywhere]
    rw [ih]

/-- C6: replacing the empty string with any negative count inserts the
replacement at the start of the string and after every character of it,
one insertion more than the number of characters. -/
theorem replace_empty_old (s new : hotcoalString) (n : Int) (hn : n < 0) :
    Replace s "" new n = ⟨insertEverywhere new.data s.data⟩ := by
  by_cases hnew : ("" : String) = new
  · have hdata : new.data = [] := by
      rw [← hnew]
    rw [Replace, if_pos (Or.inl hnew), hdata, insertEverywhere_nil]
  · have hcond : ¬(("" : String) = new ∨ n = 0) := by
      push_neg
      exact ⟨hnew, by omega⟩
    rw [Replace, if_neg hcond]
    have hc : Count s.data ("" : String).data = s.data.length + 1 := rfl
    simp only [hc]
    rw [if_neg (by omega)]
    rw [if_pos (Or.inl hn)]
    rw [replLoop_empty_first, replLoop_empty_notfirst]

theorem replace_empty_old_witness :
    Replace "ab" "" "-" (-1) = "-a-b-" := by
  have h := replace_empty_old "ab" "-" (-1) (by decide)
  rw [h]
  decide

/-- Modelled from the spec: the base-10 decimal string representation
of an integer — a minus sign for negatives followed by the decimal
digits of the magnitude, most significant digit first (Nat.digits lists
digits least significant first, hence the reverse). -/
def decimalRepr (i : Int) : String :=
  if i < 0 then ⟨'-' :: ((Nat.digits 10 (-i).toNat).map digitChar).reverse⟩
  else if i = 0 then "0"
  else ⟨((Nat.digits 10 i.toNat).map digitChar).reverse⟩

theorem fmtNat_eq_digits (n : Nat) (hn : n ≠ 0) :
    fmtNat n = ((Nat.digits 10 n).map digitChar).reverse := by
  induction n using Nat.strong_induction_on with
  | _ n ih =>
  rw [fmtNat]
  by_cases h : n < 10
  · rw [if_pos h]
    rw [Nat.digits_def' (by norm_num : (1 : Nat) < 10) (Nat.pos_of_ne_zero hn)]
    rw [Nat.mod_eq_of_lt h, Nat.div_eq_of_lt h, Nat.digits_zero]
    simp
  · rw [if_neg h]
    rw [Nat.digits_def' (by norm_num : (1 : Nat) < 10) (Nat.pos_of_ne_zero hn)]
    rw [ih (n / 10) (Nat.div_lt_self (by omega) (by omega)) (by omega)]
    simp

/-- C10: Itoa returns the base-10 decimal string representation of its
integer argument. -/
theorem itoa_decimal (i : Int) : Itoa i = decimalRepr i := by
  unfold Itoa decimalRepr
  by_cases h : i < 0
  · rw [if_pos h, if_pos h]
    have hm : (-i).toNat ≠ 0 := by omega
    rw [fmtNat_eq_digits _ hm]
  · by_cases h0 : i = 0
    · subst h0
      have hf : fmtNat 0 = ['0'] := by
        rw [fmtNat]
        norm_num [digitChar]
      norm_num [hf]
    · rw [if_neg h, if_neg h, if_neg h0]
      have hm : i.toNat ≠ 0 := by omega
      rw [fmtNat_eq_digits _ hm]

end Hotcoal
